import Mathlib

/-!
Verification development for the block-cached raster access layer and the
flow-direction neighborhood traversal framework of
`src/natcap/invest/managed_raster/ManagedRaster.h`.

Conventions of the embedding:
* C `double` cell values and `float` flow proportions are modelled as `ℚ`;
  the flow encodings involved are small integers that round-trip exactly
  through double precision, and the single float division performed by the
  upslope iterator is modelled as exact division.
* C `int`/`long` variables are modelled as `Int`; C truncating division is
  `Int.tdiv`, C bitwise and is `Int.land`, C arithmetic right shift is
  `Int.shiftRight`.
* The loops `for (n_dir = 0; n_dir < 8; n_dir++)` and the iterator `next`
  methods (which recurse after skipping a direction) are unrolled with an
  explicit fuel argument equal to `8 - n_dir`, so that all definitions are
  structurally recursive and executable.
-/

namespace InvestManagedRaster

/-- Neighbor row offsets, `ManagedRaster.h` line 17:
`int ROW_OFFSETS[8] = {0, -1, -1, -1, 0, 1, 1, 1}`. -/
def ROW_OFFSETS : List Int := [0, -1, -1, -1, 0, 1, 1, 1]

/-- Neighbor column offsets, `ManagedRaster.h` line 18:
`int COL_OFFSETS[8] = {1, 1, 0, -1, -1, -1, 0, 1}`. -/
def COL_OFFSETS : List Int := [1, 1, 0, -1, -1, -1, 0, 1]

/-- Reverse direction table, `ManagedRaster.h` line 19:
`int FLOW_DIR_REVERSE_DIRECTION[8] = {4, 5, 6, 7, 0, 1, 2, 3}`. -/
def FLOW_DIR_REVERSE_DIRECTION : List Nat := [4, 5, 6, 7, 0, 1, 2, 3]

/-- In-range read `ROW_OFFSETS[d]` for a loop counter `d` known to lie in
`[0,8)`; out of that range the C array read would be undefined, so those
accesses are modelled separately where they can occur (see `D8Step`). -/
def rowOff (d : Nat) : Int := ROW_OFFSETS.getD d 0

/-- In-range read `COL_OFFSETS[d]`. -/
def colOff (d : Nat) : Int := COL_OFFSETS.getD d 0

/-- In-range read `FLOW_DIR_REVERSE_DIRECTION[d]`. -/
def revDir (d : Nat) : Nat := FLOW_DIR_REVERSE_DIRECTION.getD d 0

/-- Nibble extraction `0xF & (v >> (4 * d))` used throughout the multi
(MFD) scheme: nibble `d` holds the integer outflow weight in direction
`d`. -/
def nibble (v : Int) (d : Nat) : Int :=
  Int.land (Int.shiftRight v (4 * d)) 0xF

/-- The normalization denominator loop of `UpslopeNeighborIterator<MFD>::next`
(lines 634-637): `for idx in 0..8: flow_dir_j_sum += (flow_dir_j >> (idx*4)) & 0xF`. -/
def sumNibbles (v : Int) : Int :=
  (List.range 8).foldl (fun acc idx => acc + nibble v idx) 0

/-- A flow-direction raster as the iterators observe it through
`ManagedRaster::get`: raster dimensions plus the integer-cast pixel value
at each coordinate (`int flow_dir = get(x, y)`; the flow encodings are
small integers that survive the double-precision round trip exactly). -/
structure FlowRaster where
  raster_x_size : Int
  raster_y_size : Int
  val : Int → Int → Int

/-- The out-of-bounds test `xj < 0 or xj >= raster_x_size or yj < 0 or
yj >= raster_y_size` that guards every neighbor access. -/
def FlowRaster.oob (r : FlowRaster) (xj yj : Int) : Prop :=
  xj < 0 ∨ r.raster_x_size ≤ xj ∨ yj < 0 ∨ r.raster_y_size ≤ yj

instance (r : FlowRaster) (xj yj : Int) : Decidable (r.oob xj yj) := by
  unfold FlowRaster.oob; infer_instance

/-- Coordinates in raster bounds (the negation of `FlowRaster.oob`). -/
def FlowRaster.inBounds (r : FlowRaster) (xj yj : Int) : Prop :=
  0 ≤ xj ∧ xj < r.raster_x_size ∧ 0 ≤ yj ∧ yj < r.raster_y_size

instance (r : FlowRaster) (xj yj : Int) : Decidable (r.inBounds xj yj) := by
  unfold FlowRaster.inBounds; infer_instance

theorem FlowRaster.not_oob_iff (r : FlowRaster) (xj yj : Int) :
    ¬ r.oob xj yj ↔ r.inBounds xj yj := by
  unfold FlowRaster.oob FlowRaster.inBounds
  constructor
  · intro h
    push_neg at h
    exact h
  · rintro ⟨h1, h2, h3, h4⟩ (h | h | h | h) <;> omega

/-- The loop body of `ManagedFlowDirRaster<MFD>::is_local_high_point`
(lines 367-379), unrolled with `fuel = 8 - n_dir`: skip out-of-bounds
neighbors, return `false` as soon as a neighbor has a nonzero nibble
pointing back at `(xi, yi)`, return `true` when the loop completes. -/
def hpLoopMFD (r : FlowRaster) (xi yi : Int) : Nat → Nat → Bool
  | _, 0 => true
  | n_dir, fuel + 1 =>
    let xj := xi + colOff n_dir
    let yj := yi + rowOff n_dir
    if r.oob xj yj then
      hpLoopMFD r xi yi (n_dir + 1) fuel
    else if nibble (r.val xj yj) (revDir n_dir) = 0 then
      hpLoopMFD r xi yi (n_dir + 1) fuel
    else
      false

/-- `ManagedFlowDirRaster<MFD>::is_local_high_point(xi, yi)`
(lines 351-381). -/
def is_local_high_point (r : FlowRaster) (xi yi : Int) : Bool :=
  hpLoopMFD r xi yi 0 8

/-- The tuple `(direction, x, y, flow_proportion)` produced by the neighbor
iterators (`class NeighborTuple`, lines 31-44). -/
structure NeighborTuple where
  direction : Int
  x : Int
  y : Int
  flow_proportion : ℚ
  deriving DecidableEq

/-- A pixel descriptor (`class Pixel`, lines 413-427): the raster, the
coordinates, and the integer-cast value captured at construction. -/
structure Pixel where
  raster : FlowRaster
  x : Int
  y : Int
  val : Int

/-- The `Pixel` constructor: `val = static_cast<int>(raster.get(x, y))`. -/
def mkPixel (r : FlowRaster) (x y : Int) : Pixel :=
  ⟨r, x, y, r.val x y⟩

/-- The sequence of tuples emitted by `DownslopeNeighborIterator<MFD>::next`
(lines 492-518) starting at direction cursor `i`, with `fuel = 8 - i`:
out-of-bounds neighbors and zero nibbles are skipped, otherwise the tuple
`(i, xj, yj, flow)` with the raw nibble as proportion is emitted. -/
def downslopeMFDAux (p : Pixel) : Nat → Nat → List NeighborTuple
  | _, 0 => []
  | i, fuel + 1 =>
    let xj := p.x + colOff i
    let yj := p.y + rowOff i
    if p.raster.oob xj yj then
      downslopeMFDAux p (i + 1) fuel
    else if nibble p.val i ≠ 0 then
      ⟨(i : Int), xj, yj, ((nibble p.val i : Int) : ℚ)⟩ ::
        downslopeMFDAux p (i + 1) fuel
    else
      downslopeMFDAux p (i + 1) fuel

/-- All tuples emitted by a fresh `DownslopeNeighborIterator<MFD>` before it
reaches the end sentinel. -/
def downslopeListMFD (p : Pixel) : List NeighborTuple :=
  downslopeMFDAux p 0 8

/-- The sequence of tuples emitted by `UpslopeNeighborIterator<MFD>::next`
(lines 610-647): out-of-bounds neighbors are skipped; a neighbor `j` whose
nibble `FLOW_DIR_REVERSE_DIRECTION[i]` is nonzero yields the tuple
`(i, xj, yj, flow_ji / flow_dir_j_sum)`. -/
def upslopeMFDAux (p : Pixel) : Nat → Nat → List NeighborTuple
  | _, 0 => []
  | i, fuel + 1 =>
    let xj := p.x + colOff i
    let yj := p.y + rowOff i
    if p.raster.oob xj yj then
      upslopeMFDAux p (i + 1) fuel
    else
      let flow_dir_j := p.raster.val xj yj
      let flow_ji := nibble flow_dir_j (revDir i)
      if flow_ji ≠ 0 then
        ⟨(i : Int), xj, yj, (flow_ji : ℚ) / (sumNibbles flow_dir_j : ℚ)⟩ ::
          upslopeMFDAux p (i + 1) fuel
      else
        upslopeMFDAux p (i + 1) fuel

/-- All tuples emitted by a fresh `UpslopeNeighborIterator<MFD>`. -/
def upslopeListMFD (p : Pixel) : List NeighborTuple :=
  upslopeMFDAux p 0 8

/-- The sequence of tuples emitted by
`UpslopeNeighborNoDivideIterator<MFD>::next` (lines 694-723): identical
selection logic to the dividing variant, but the emitted proportion is the
raw nibble `flow_ji` itself. -/
def upslopeNoDivMFDAux (p : Pixel) : Nat → Nat → List NeighborTuple
  | _, 0 => []
  | i, fuel + 1 =>
    let xj := p.x + colOff i
    let yj := p.y + rowOff i
    if p.raster.oob xj yj then
      upslopeNoDivMFDAux p (i + 1) fuel
    else
      let flow_dir_j := p.raster.val xj yj
      let flow_ji := nibble flow_dir_j (revDir i)
      if flow_ji ≠ 0 then
        ⟨(i : Int), xj, yj, (flow_ji : ℚ)⟩ :: upslopeNoDivMFDAux p (i + 1) fuel
      else
        upslopeNoDivMFDAux p (i + 1) fuel

/-- All tuples emitted by a fresh `UpslopeNeighborNoDivideIterator<MFD>`. -/
def upslopeNoDivListMFD (p : Pixel) : List NeighborTuple :=
  upslopeNoDivMFDAux p 0 8

/-- Result of one call to a D8 downslope `next`: the end sentinel
`endVal = (8, -1, -1, -1)`, an emitted tuple, or an out-of-range read of
`COL_OFFSETS`/`ROW_OFFSETS` (the C code indexes both arrays at
`pixel.val` without any range check, which for `pixel.val` outside
`[0, 7]` reads past the array bounds — undefined behavior, modelled as a
distinguished error state). -/
inductive D8Step where
  | endSentinel : D8Step
  | emit : NeighborTuple → D8Step
  | oobTableRead : D8Step
  deriving DecidableEq

/-- One call to `DownslopeNeighborIterator<D8>::next` (lines 520-540) with
direction cursor `i`: at `i = 8` the end sentinel; otherwise the code reads
`COL_OFFSETS[pixel.val]` and `ROW_OFFSETS[pixel.val]` (out-of-range for
`pixel.val` outside `[0, 7]`), ends without emitting when the single
out-neighbor is out of raster bounds, and otherwise emits
`(pixel.val, xj, yj, 1)`. -/
def downslopeD8Next (p : Pixel) (i : Nat) : D8Step :=
  if 8 ≤ i then
    .endSentinel
  else if _h : 0 ≤ p.val ∧ p.val < 8 then
    let xj := p.x + colOff p.val.toNat
    let yj := p.y + rowOff p.val.toNat
    if p.raster.oob xj yj then
      .endSentinel
    else
      .emit ⟨p.val, xj, yj, 1⟩
  else
    .oobTableRead

/-- One call to `DownslopeNeighborNoSkipIterator<D8>::next` (lines 579-594):
like `downslopeD8Next` but without the raster-bounds check. -/
def downslopeNoSkipD8Next (p : Pixel) (i : Nat) : D8Step :=
  if 8 ≤ i then
    .endSentinel
  else if _h : 0 ≤ p.val ∧ p.val < 8 then
    .emit ⟨p.val, p.x + colOff p.val.toNat, p.y + rowOff p.val.toNat, 1⟩
  else
    .oobTableRead

theorem colOff_revDir : ∀ d, d < 8 → colOff (revDir d) = - colOff d := by decide

theorem rowOff_revDir : ∀ d, d < 8 → rowOff (revDir d) = - rowOff d := by decide

theorem revDir_lt : ∀ d, d < 8 → revDir d < 8 := by decide

theorem revDir_revDir : ∀ d, d < 8 → revDir (revDir d) = d := by decide

theorem nibble_nonneg (v : Int) (d : Nat) : 0 ≤ nibble v d := by
  unfold nibble
  rcases h : Int.shiftRight v (4 * d) with k | k <;> exact Int.ofNat_nonneg _

theorem sumNibbles_eq (v : Int) :
    sumNibbles v = 0 + nibble v 0 + nibble v 1 + nibble v 2 + nibble v 3 +
      nibble v 4 + nibble v 5 + nibble v 6 + nibble v 7 := rfl

theorem nibble_le_sumNibbles (v : Int) (d : Nat) (hd : d < 8) :
    nibble v d ≤ sumNibbles v := by
  have h0 := nibble_nonneg v 0
  have h1 := nibble_nonneg v 1
  have h2 := nibble_nonneg v 2
  have h3 := nibble_nonneg v 3
  have h4 := nibble_nonneg v 4
  have h5 := nibble_nonneg v 5
  have h6 := nibble_nonneg v 6
  have h7 := nibble_nonneg v 7
  rw [sumNibbles_eq]
  interval_cases d <;> linarith

theorem one_le_nibble_of_ne_zero (v : Int) (d : Nat) (h : nibble v d ≠ 0) :
    1 ≤ nibble v d :=
  lt_of_le_of_ne (nibble_nonneg v d) (Ne.symm h)

theorem sumNibbles_pos_of_nibble_ne_zero (v : Int) (d : Nat) (hd : d < 8)
    (h : nibble v d ≠ 0) : 0 < sumNibbles v :=
  lt_of_lt_of_le (one_le_nibble_of_ne_zero v d h) (nibble_le_sumNibbles v d hd)

theorem hpLoopMFD_eq_true_iff (r : FlowRaster) (xi yi : Int) :
    ∀ fuel n_dir, (hpLoopMFD r xi yi n_dir fuel = true ↔
      ∀ d, n_dir ≤ d → d < n_dir + fuel →
        r.inBounds (xi + colOff d) (yi + rowOff d) →
        nibble (r.val (xi + colOff d) (yi + rowOff d)) (revDir d) = 0)
  | 0, n => by
    simp only [hpLoopMFD, true_iff]
    intro d h1 h2
    exact absurd h2 (by omega)
  | fuel + 1, n => by
    have IH := hpLoopMFD_eq_true_iff r xi yi fuel (n + 1)
    simp only [hpLoopMFD]
    by_cases hoob : r.oob (xi + colOff n) (yi + rowOff n)
    · rw [if_pos hoob, IH]
      constructor
      · intro h d h1 h2 hin
        rcases Nat.eq_or_lt_of_le h1 with rfl | hlt
        · exact ((r.not_oob_iff _ _).mpr hin hoob).elim
        · exact h d hlt (by omega) hin
      · intro h d h1 h2 hin
        exact h d (by omega) (by omega) hin
    · rw [if_neg hoob]
      by_cases hnib : nibble (r.val (xi + colOff n) (yi + rowOff n)) (revDir n) = 0
      · rw [if_pos hnib, IH]
        constructor
        · intro h d h1 h2 hin
          rcases Nat.eq_or_lt_of_le h1 with rfl | hlt
          · exact hnib
          · exact h d hlt (by omega) hin
        · intro h d h1 h2 hin
          exact h d (by omega) (by omega) hin
      · rw [if_neg hnib]
        simp only [Bool.false_eq_true, false_iff, not_forall]
        refine ⟨n, le_refl n, by omega, (r.not_oob_iff _ _).mp hoob, hnib⟩

/-- C2: for the multi (MFD) scheme, `is_local_high_point(x, y)` returns true
iff for every direction `d` in `[0, 7]` whose neighbor is in raster bounds,
nibble `FLOW_DIR_REVERSE_DIRECTION[d]` of that neighbor's pixel value is
zero; out-of-bounds neighbors are skipped and never make the result
false. -/
theorem C2_is_local_high_point_iff (r : FlowRaster) (xi yi : Int) :
    is_local_high_point r xi yi = true ↔
      ∀ d, d < 8 → r.inBounds (xi + colOff d) (yi + rowOff d) →
        nibble (r.val (xi + colOff d) (yi + rowOff d)) (revDir d) = 0 := by
  rw [is_local_high_point, hpLoopMFD_eq_true_iff]
  constructor
  · intro h d hd hin
    exact h d (Nat.zero_le d) (by omega) hin
  · intro h d _ hd hin
    exact h d (by omega) hin

theorem mem_downslopeMFDAux (p : Pixel) :
    ∀ fuel i t, (t ∈ downslopeMFDAux p i fuel ↔
      ∃ d, i ≤ d ∧ d < i + fuel ∧
        p.raster.inBounds (p.x + colOff d) (p.y + rowOff d) ∧
        nibble p.val d ≠ 0 ∧
        t = ⟨(d : Int), p.x + colOff d, p.y + rowOff d, (nibble p.val d : ℚ)⟩)
  | 0, i, t => by
    simp only [downslopeMFDAux, List.not_mem_nil, false_iff, not_exists]
    intro d ⟨h1, h2, _⟩
    exact absurd h2 (by omega)
  | fuel + 1, i, t => by
    have IH := mem_downslopeMFDAux p fuel (i + 1) t
    simp only [downslopeMFDAux]
    by_cases hoob : p.raster.oob (p.x + colOff i) (p.y + rowOff i)
    · rw [if_pos hoob, IH]
      constructor
      · rintro ⟨d, h1, h2, h3⟩
        exact ⟨d, by omega, by omega, h3⟩
      · rintro ⟨d, h1, h2, h3⟩
        rcases Nat.eq_or_lt_of_le h1 with rfl | hlt
        · exact ((p.raster.not_oob_iff _ _).mpr h3.1 hoob).elim
        · exact ⟨d, hlt, by omega, h3⟩
    · rw [if_neg hoob]
      by_cases hnib : nibble p.val i ≠ 0
      · rw [if_pos hnib]
        simp only [List.mem_cons, IH]
        constructor
        · rintro (rfl | ⟨d, h1, h2, h3⟩)
          · exact ⟨i, le_refl i, by omega, (p.raster.not_oob_iff _ _).mp hoob,
              hnib, rfl⟩
          · exact ⟨d, by omega, by omega, h3⟩
        · rintro ⟨d, h1, h2, h3⟩
          rcases Nat.eq_or_lt_of_le h1 with rfl | hlt
          · exact Or.inl h3.2.2
          · exact Or.inr ⟨d, hlt, by omega, h3⟩
      · rw [if_neg hnib, IH]
        push_neg at hnib
        constructor
        · rintro ⟨d, h1, h2, h3⟩
          exact ⟨d, by omega, by omega, h3⟩
        · rintro ⟨d, h1, h2, h3⟩
          rcases Nat.eq_or_lt_of_le h1 with rfl | hlt
          · exact absurd hnib h3.2.1
          · exact ⟨d, hlt, by omega, h3⟩

theorem mem_upslopeMFDAux (p : Pixel) :
    ∀ fuel i t, (t ∈ upslopeMFDAux p i fuel ↔
      ∃ d, i ≤ d ∧ d < i + fuel ∧
        p.raster.inBounds (p.x + colOff d) (p.y + rowOff d) ∧
        nibble (p.raster.val (p.x + colOff d) (p.y + rowOff d)) (revDir d) ≠ 0 ∧
        t = ⟨(d : Int), p.x + colOff d, p.y + rowOff d,
          (nibble (p.raster.val (p.x + colOff d) (p.y + rowOff d)) (revDir d) : ℚ) /
            (sumNibbles (p.raster.val (p.x + colOff d) (p.y + rowOff d)) : ℚ)⟩)
  | 0, i, t => by
    simp only [upslopeMFDAux, List.not_mem_nil, false_iff, not_exists]
    intro d ⟨h1, h2, _⟩
    exact absurd h2 (by omega)
  | fuel + 1, i, t => by
    have IH := mem_upslopeMFDAux p fuel (i + 1) t
    simp only [upslopeMFDAux]
    by_cases hoob : p.raster.oob (p.x + colOff i) (p.y + rowOff i)
    · rw [if_pos hoob, IH]
      constructor
      · rintro ⟨d, h1, h2, h3⟩
        exact ⟨d, by omega, by omega, h3⟩
      · rintro ⟨d, h1, h2, h3⟩
        rcases Nat.eq_or_lt_of_le h1 with rfl | hlt
        · exact ((p.raster.not_oob_iff _ _).mpr h3.1 hoob).elim
        · exact ⟨d, hlt, by omega, h3⟩
    · rw [if_neg hoob]
      by_cases hnib :
          nibble (p.raster.val (p.x + colOff i) (p.y + rowOff i)) (revDir i) ≠ 0
      · rw [if_pos hnib]
        simp only [List.mem_cons, IH]
        constructor
        · rintro (rfl | ⟨d, h1, h2, h3⟩)
          · exact ⟨i, le_refl i, by omega, (p.raster.not_oob_iff _ _).mp hoob,
              hnib, rfl⟩
          · exact ⟨d, by omega, by omega, h3⟩
        · rintro ⟨d, h1, h2, h3⟩
          rcases Nat.eq_or_lt_of_le h1 with rfl | hlt
          · exact Or.inl h3.2.2
          · exact Or.inr ⟨d, hlt, by omega, h3⟩
      · rw [if_neg hnib, IH]
        push_neg at hnib
        constructor
        · rintro ⟨d, h1, h2, h3⟩
          exact ⟨d, by omega, by omega, h3⟩
        · rintro ⟨d, h1, h2, h3⟩
          rcases Nat.eq_or_lt_of_le h1 with rfl | hlt
          · exact absurd hnib h3.2.1
          · exact ⟨d, hlt, by omega, h3⟩

theorem mem_upslopeNoDivMFDAux (p : Pixel) :
    ∀ fuel i t, (t ∈ upslopeNoDivMFDAux p i fuel ↔
      ∃ d, i ≤ d ∧ d < i + fuel ∧
        p.raster.inBounds (p.x + colOff d) (p.y + rowOff d) ∧
        nibble (p.raster.val (p.x + colOff d) (p.y + rowOff d)) (revDir d) ≠ 0 ∧
        t = ⟨(d : Int), p.x + colOff d, p.y + rowOff d,
          (nibble (p.raster.val (p.x + colOff d) (p.y + rowOff d)) (revDir d) : ℚ)⟩)
  | 0, i, t => by
    simp only [upslopeNoDivMFDAux, List.not_mem_nil, false_iff, not_exists]
    intro d ⟨h1, h2, _⟩
    exact absurd h2 (by omega)
  | fuel + 1, i, t => by
    have IH := mem_upslopeNoDivMFDAux p fuel (i + 1) t
    simp only [upslopeNoDivMFDAux]
    by_cases hoob : p.raster.oob (p.x + colOff i) (p.y + rowOff i)
    · rw [if_pos hoob, IH]
      constructor
      · rintro ⟨d, h1, h2, h3⟩
        exact ⟨d, by omega, by omega, h3⟩
      · rintro ⟨d, h1, h2, h3⟩
        rcases Nat.eq_or_lt_of_le h1 with rfl | hlt
        · exact ((p.raster.not_oob_iff _ _).mpr h3.1 hoob).elim
        · exact ⟨d, hlt, by omega, h3⟩
    · rw [if_neg hoob]
      by_cases hnib :
          nibble (p.raster.val (p.x + colOff i) (p.y + rowOff i)) (revDir i) ≠ 0
      · rw [if_pos hnib]
        simp only [List.mem_cons, IH]
        constructor
        · rintro (rfl | ⟨d, h1, h2, h3⟩)
          · exact ⟨i, le_refl i, by omega, (p.raster.not_oob_iff _ _).mp hoob,
              hnib, rfl⟩
          · exact ⟨d, by omega, by omega, h3⟩
        · rintro ⟨d, h1, h2, h3⟩
          rcases Nat.eq_or_lt_of_le h1 with rfl | hlt
          · exact Or.inl h3.2.2
          · exact Or.inr ⟨d, hlt, by omega, h3⟩
      · rw [if_neg hnib, IH]
        push_neg at hnib
        constructor
        · rintro ⟨d, h1, h2, h3⟩
          exact ⟨d, by omega, by omega, h3⟩
        · rintro ⟨d, h1, h2, h3⟩
          rcases Nat.eq_or_lt_of_le h1 with rfl | hlt
          · exact absurd hnib h3.2.1
          · exact ⟨d, hlt, by omega, h3⟩

theorem upslopeNoDiv_map_eq (p : Pixel) :
    ∀ fuel i,
      (upslopeNoDivMFDAux p i fuel).map (fun t => (t.direction, t.x, t.y)) =
        (upslopeMFDAux p i fuel).map (fun t => (t.direction, t.x, t.y))
  | 0, _ => rfl
  | fuel + 1, i => by
    have IH := upslopeNoDiv_map_eq p fuel (i + 1)
    simp only [upslopeNoDivMFDAux, upslopeMFDAux]
    by_cases hoob : p.raster.oob (p.x + colOff i) (p.y + rowOff i)
    · rw [if_pos hoob, if_pos hoob]
      exact IH
    · rw [if_neg hoob, if_neg hoob]
      by_cases hnib :
          nibble (p.raster.val (p.x + colOff i) (p.y + rowOff i)) (revDir i) ≠ 0
      · rw [if_pos hnib, if_pos hnib]
        simp only [List.map_cons, IH]
      · rw [if_neg hnib, if_neg hnib]
        exact IH

/-- The 3x3 raster of spec scenario S6 with the neighbor value corrected to
`0x00010004` (nibble 4 = 1, nibble 0 = 4, as the spec's own gloss of the
scenario requires): the neighbor of the center `(1,1)` at direction 0 is
`(2,1)`. -/
def rS6 : FlowRaster :=
  ⟨3, 3, fun x y => if x = 2 ∧ y = 1 then 0x00010004 else 0⟩

/-- The 3x3 raster of spec scenario S6 exactly as the spec writes it: the
neighbor `(2,1)` holds the literal `0x00000014`, whose nibble 4 is 0 (its
nonzero nibbles are nibble 0 = 4 and nibble 1 = 1). -/
def rS6bad : FlowRaster :=
  ⟨3, 3, fun x y => if x = 2 ∧ y = 1 then 0x00000014 else 0⟩

/-- Around the center `(1,1)` of `rS6bad`, no neighbor has a nonzero nibble
pointing back at the center: the only nonzero neighbor `(2,1)` holds
`0x00000014`, whose nibble 4 is 0. -/
theorem rS6bad_no_backflow :
    ∀ d, d < 8 →
      nibble (rS6bad.val ((mkPixel rS6bad 1 1).x + colOff d)
        ((mkPixel rS6bad 1 1).y + rowOff d)) (revDir d) = 0 := by
  decide

/-- C3, counterexample to the claim as stated: with the neighbor at
direction 0 holding the spec's literal `0x00000014`, nibble
`FLOW_DIR_REVERSE_DIRECTION[0] = 4` of that value is zero, so the upslope
iterators emit nothing for that neighbor — in particular neither the tuple
with proportion 1/5 nor the no-divide tuple with proportion 1 claimed by
the spec. -/
theorem C3_counterexample :
    (⟨0, 2, 1, (1 : ℚ) / 5⟩ : NeighborTuple) ∉ upslopeListMFD (mkPixel rS6bad 1 1) ∧
    (⟨0, 2, 1, 1⟩ : NeighborTuple) ∉ upslopeNoDivListMFD (mkPixel rS6bad 1 1) := by
  constructor
  · intro hmem
    rw [upslopeListMFD, mem_upslopeMFDAux] at hmem
    obtain ⟨d, _, hd, _, hnib, _⟩ := hmem
    exact hnib (rS6bad_no_backflow d (by omega))
  · intro hmem
    rw [upslopeNoDivListMFD, mem_upslopeNoDivMFDAux] at hmem
    obtain ⟨d, _, hd, _, hnib, _⟩ := hmem
    exact hnib (rS6bad_no_backflow d (by omega))

/-- The S6 upslope emission at the corrected neighbor value: the tuple
`(0, 2, 1, 1/5)` is emitted by the Upslope iterator at `(1, 1)` of
`rS6`. -/
theorem rS6_upslope_mem :
    (⟨0, 2, 1, (1 : ℚ) / 5⟩ : NeighborTuple) ∈ upslopeListMFD (mkPixel rS6 1 1) := by
  rw [upslopeListMFD, mem_upslopeMFDAux]
  refine ⟨0, le_refl 0, by omega, by decide, by decide, ?_⟩
  have h1 : nibble ((mkPixel rS6 1 1).raster.val
      ((mkPixel rS6 1 1).x + colOff 0) ((mkPixel rS6 1 1).y + rowOff 0))
      (revDir 0) = 1 := by decide
  have h2 : sumNibbles ((mkPixel rS6 1 1).raster.val
      ((mkPixel rS6 1 1).x + colOff 0) ((mkPixel rS6 1 1).y + rowOff 0)) = 5 := by
    decide
  have hx : (mkPixel rS6 1 1).x + colOff 0 = 2 := by decide
  have hy : (mkPixel rS6 1 1).y + rowOff 0 = 1 := by decide
  rw [h1, h2, hx, hy]
  simp only [NeighborTuple.mk.injEq]
  norm_num

/-- The S6 no-divide upslope emission at the corrected neighbor value: the
tuple `(0, 2, 1, 1)` is emitted by the Upslope-no-divide iterator at
`(1, 1)` of `rS6`. -/
theorem rS6_upslopeNoDiv_mem :
    (⟨0, 2, 1, 1⟩ : NeighborTuple) ∈ upslopeNoDivListMFD (mkPixel rS6 1 1) := by
  rw [upslopeNoDivListMFD, mem_upslopeNoDivMFDAux]
  refine ⟨0, le_refl 0, by omega, by decide, by decide, ?_⟩
  have h1 : nibble ((mkPixel rS6 1 1).raster.val
      ((mkPixel rS6 1 1).x + colOff 0) ((mkPixel rS6 1 1).y + rowOff 0))
      (revDir 0) = 1 := by decide
  have hx : (mkPixel rS6 1 1).x + colOff 0 = 2 := by decide
  have hy : (mkPixel rS6 1 1).y + rowOff 0 = 1 := by decide
  rw [h1, hx, hy]
  simp only [NeighborTuple.mk.injEq]
  norm_num

/-- C3 (amended): whenever the MFD Upslope iterator emits a tuple for
direction `d`, its proportion is nibble `FLOW_DIR_REVERSE_DIRECTION[d]` of
the neighbor's value divided by the sum of all eight nibbles of that value;
the Upslope-no-divide iterator emits the same directions with the raw
nibble as proportion; and in the concrete S6 scenario with the neighbor
value `0x00010004` (nibble 4 = 1, nibble 0 = 4), Upslope emits
`(d = 0, proportion = 1/5)` and Upslope-no-divide emits
`(d = 0, proportion = 1)`. -/
theorem C3_upslope_proportion :
    (∀ (p : Pixel) (t : NeighborTuple), t ∈ upslopeListMFD p →
      ∃ d : Nat, d < 8 ∧ t.direction = (d : Int) ∧
        t.x = p.x + colOff d ∧ t.y = p.y + rowOff d ∧
        t.flow_proportion =
          (nibble (p.raster.val t.x t.y) (revDir d) : ℚ) /
            (sumNibbles (p.raster.val t.x t.y) : ℚ)) ∧
    (∀ (p : Pixel) (t : NeighborTuple), t ∈ upslopeNoDivListMFD p →
      ∃ d : Nat, d < 8 ∧ t.direction = (d : Int) ∧
        t.x = p.x + colOff d ∧ t.y = p.y + rowOff d ∧
        t.flow_proportion = (nibble (p.raster.val t.x t.y) (revDir d) : ℚ)) ∧
    (∀ p : Pixel,
      (upslopeNoDivListMFD p).map (fun t => (t.direction, t.x, t.y)) =
        (upslopeListMFD p).map (fun t => (t.direction, t.x, t.y))) ∧
    ((⟨0, 2, 1, (1 : ℚ) / 5⟩ : NeighborTuple) ∈ upslopeListMFD (mkPixel rS6 1 1) ∧
      (⟨0, 2, 1, 1⟩ : NeighborTuple) ∈ upslopeNoDivListMFD (mkPixel rS6 1 1)) := by
  refine ⟨?_, ?_, ?_, rS6_upslope_mem, rS6_upslopeNoDiv_mem⟩
  · intro p t ht
    rw [upslopeListMFD, mem_upslopeMFDAux] at ht
    obtain ⟨d, _, hd, _, _, rfl⟩ := ht
    exact ⟨d, by omega, rfl, rfl, rfl, rfl⟩
  · intro p t ht
    rw [upslopeNoDivListMFD, mem_upslopeNoDivMFDAux] at ht
    obtain ⟨d, _, hd, _, _, rfl⟩ := ht
    exact ⟨d, by omega, rfl, rfl, rfl, rfl⟩
  · intro p
    exact upslopeNoDiv_map_eq p 8 0

/-- C3, witness for the amended theorem: the first conjunct applied to the
concrete S6 pixel and tuple. -/
theorem C3_witness :
    ∃ d : Nat, d < 8 ∧
      (⟨0, 2, 1, (1 : ℚ) / 5⟩ : NeighborTuple).direction = (d : Int) ∧
      (⟨0, 2, 1, (1 : ℚ) / 5⟩ : NeighborTuple).x = (mkPixel rS6 1 1).x + colOff d ∧
      (⟨0, 2, 1, (1 : ℚ) / 5⟩ : NeighborTuple).y = (mkPixel rS6 1 1).y + rowOff d ∧
      (⟨0, 2, 1, (1 : ℚ) / 5⟩ : NeighborTuple).flow_proportion =
        (nibble ((mkPixel rS6 1 1).raster.val 2 1) (revDir d) : ℚ) /
          (sumNibbles ((mkPixel rS6 1 1).raster.val 2 1) : ℚ) :=
  C3_upslope_proportion.1 (mkPixel rS6 1 1) ⟨0, 2, 1, (1 : ℚ) / 5⟩ rS6_upslope_mem

/-- C8: MFD downslope/upslope duality. If the Downslope iterator at an
in-bounds pixel `i = (xi, yi)` emits direction `d` (so nibble `d` of `i`'s
value is nonzero and the neighbor `j` is in bounds), then the Upslope
iterator at `j` emits direction `FLOW_DIR_REVERSE_DIRECTION[d]` pointing
back at `i`, with proportion nibble `d` of `i`'s value divided by the sum
of the eight nibbles of `i`'s value. -/
theorem C8_downslope_upslope_duality (r : FlowRaster) (xi yi : Int) (d : Nat)
    (hd : d < 8) (hi : r.inBounds xi yi)
    (hw : nibble (r.val xi yi) d ≠ 0)
    (hemit : ∃ t ∈ downslopeListMFD (mkPixel r xi yi), t.direction = (d : Int)) :
    (⟨(revDir d : Int), xi, yi,
        (nibble (r.val xi yi) d : ℚ) / (sumNibbles (r.val xi yi) : ℚ)⟩ :
      NeighborTuple) ∈
      upslopeListMFD (mkPixel r (xi + colOff d) (yi + rowOff d)) := by
  rw [upslopeListMFD, mem_upslopeMFDAux]
  refine ⟨revDir d, Nat.zero_le _, by have := revDir_lt d hd; omega, ?_, ?_, ?_⟩ <;>
    simp only [mkPixel, colOff_revDir d hd, rowOff_revDir d hd, revDir_revDir d hd,
      add_neg_cancel_right]
  · exact hi
  · exact hw

/-- C8, witness: a 3x3 raster whose center pixel `(1,1)` has value 1
(nibble 0 = 1), so Downslope at the center emits direction 0 and Upslope
at `(2,1)` emits direction 4 back at the center. -/
def rC8 : FlowRaster :=
  ⟨3, 3, fun x y => if x = 1 ∧ y = 1 then 1 else 0⟩

theorem C8_witness :
    (0 : Nat) < 8 ∧ rC8.inBounds 1 1 ∧ nibble (rC8.val 1 1) 0 ≠ 0 ∧
      (∃ t ∈ downslopeListMFD (mkPixel rC8 1 1), t.direction = ((0 : Nat) : Int)) ∧
      (⟨(revDir 0 : Int), 1, 1,
          (nibble (rC8.val 1 1) 0 : ℚ) / (sumNibbles (rC8.val 1 1) : ℚ)⟩ :
        NeighborTuple) ∈
        upslopeListMFD (mkPixel rC8 (1 + colOff 0) (1 + rowOff 0)) :=
  ⟨by decide, by decide, by decide, by decide,
    C8_downslope_upslope_duality rC8 1 1 0 (by decide) (by decide) (by decide)
      (by decide)⟩

/-- C9: in the MFD Upslope iterator the normalization division is always
well-defined: every emitted tuple has a nonzero back-pointing nibble
`flow_ji`, and the denominator `flow_dir_j_sum` is at least `flow_ji`,
hence at least 1 and in particular nonzero. -/
theorem C9_upslope_denominator_pos (p : Pixel) (t : NeighborTuple)
    (ht : t ∈ upslopeListMFD p) :
    ∃ d : Nat, d < 8 ∧ t.direction = (d : Int) ∧
      nibble (p.raster.val t.x t.y) (revDir d) ≠ 0 ∧
      1 ≤ nibble (p.raster.val t.x t.y) (revDir d) ∧
      nibble (p.raster.val t.x t.y) (revDir d) ≤ sumNibbles (p.raster.val t.x t.y) ∧
      0 < sumNibbles (p.raster.val t.x t.y) := by
  rw [upslopeListMFD, mem_upslopeMFDAux] at ht
  obtain ⟨d, _, hd, _, hnib, rfl⟩ := ht
  have hd8 : d < 8 := by omega
  have hrev := revDir_lt d hd8
  refine ⟨d, hd8, rfl, hnib, one_le_nibble_of_ne_zero _ _ hnib,
    nibble_le_sumNibbles _ _ hrev, sumNibbles_pos_of_nibble_ne_zero _ _ hrev hnib⟩

theorem C9_witness :
    (⟨0, 2, 1, (1 : ℚ) / 5⟩ : NeighborTuple) ∈ upslopeListMFD (mkPixel rS6 1 1) ∧
      ∃ d : Nat, d < 8 ∧
        (⟨0, 2, 1, (1 : ℚ) / 5⟩ : NeighborTuple).direction = (d : Int) ∧
        nibble ((mkPixel rS6 1 1).raster.val 2 1) (revDir d) ≠ 0 ∧
        1 ≤ nibble ((mkPixel rS6 1 1).raster.val 2 1) (revDir d) ∧
        nibble ((mkPixel rS6 1 1).raster.val 2 1) (revDir d) ≤
          sumNibbles ((mkPixel rS6 1 1).raster.val 2 1) ∧
        0 < sumNibbles ((mkPixel rS6 1 1).raster.val 2 1) :=
  ⟨rS6_upslope_mem,
    C9_upslope_denominator_pos (mkPixel rS6 1 1) ⟨0, 2, 1, (1 : ℚ) / 5⟩
      rS6_upslope_mem⟩

/-- Raster for the C5 counterexample: every pixel holds the single-scheme
value 8, one past the valid direction range `[0, 7]`. -/
def rD8oob : FlowRaster := ⟨3, 3, fun _ _ => 8⟩

/-- Raster for the C5 witness: every pixel holds the single-scheme value
-1, below the valid direction range. -/
def rD8neg : FlowRaster := ⟨3, 3, fun _ _ => -1⟩

/-- C5, counterexample to the claim as stated: for a pixel whose
single-scheme value is 8 (an integer outside `[0, 7]`), the first step of
both D8 downslope iterators reads `COL_OFFSETS[8]`/`ROW_OFFSETS[8]` — an
out-of-range access into the direction offset tables — instead of yielding
the end sentinel. -/
theorem C5_counterexample :
    downslopeD8Next (mkPixel rD8oob 1 1) 0 = D8Step.oobTableRead ∧
    downslopeNoSkipD8Next (mkPixel rD8oob 1 1) 0 = D8Step.oobTableRead ∧
    D8Step.oobTableRead ≠ D8Step.endSentinel := by
  decide

/-- C5 (amended): under the single scheme, a pixel value outside `[0, 7]`
is not treated as "no outflow": the first step of both the Downslope and
the Downslope-no-skip iterator indexes the direction offset tables at
`pixel.val` without any range check, an out-of-range table access
(undefined behavior in the C++ source), rather than yielding the end
sentinel. -/
theorem C5_d8_out_of_range (p : Pixel) (hv : p.val < 0 ∨ 7 < p.val) :
    downslopeD8Next p 0 = D8Step.oobTableRead ∧
    downslopeNoSkipD8Next p 0 = D8Step.oobTableRead := by
  unfold downslopeD8Next downslopeNoSkipD8Next
  rw [if_neg (by omega), dif_neg (by omega), if_neg (by omega), dif_neg (by omega)]
  exact ⟨rfl, rfl⟩

theorem C5_witness :
    ((mkPixel rD8neg 1 1).val < 0 ∨ 7 < (mkPixel rD8neg 1 1).val) ∧
      downslopeD8Next (mkPixel rD8neg 1 1) 0 = D8Step.oobTableRead ∧
      downslopeNoSkipD8Next (mkPixel rD8neg 1 1) 0 = D8Step.oobTableRead :=
  ⟨by decide, C5_d8_out_of_range (mkPixel rD8neg 1 1) (by decide)⟩

/-- A resident block buffer: the window of doubles read for one block, as a
flat row-major array (modelled as a total function from the flat index). -/
abbrev BlockBuf : Type := Nat → ℚ

instance : Inhabited BlockBuf := ⟨fun _ => 0⟩

/-- Modelled from the spec: `LRUCache.h` is included by `ManagedRaster.h`
but is not among the sources; §4.1 of the spec describes it as a
fixed-capacity map from block index to owned buffer, kept here as a
most-recent-first association list. `get` moves the accessed key to the
front, `put` inserts at the front and, if the map was at capacity before
the insertion, removes and returns the least-recently-used (last)
entry. -/
structure LRUCache where
  capacity : Nat
  entries : List (Int × BlockBuf)

instance : Inhabited LRUCache := ⟨⟨0, []⟩⟩

/-- Modelled from the spec: `exists(k)` — non-mutating residency test. -/
def LRUCache.exist (c : LRUCache) (k : Int) : Bool :=
  c.entries.any (fun e => e.1 == k)

/-- Modelled from the spec: the buffer handle returned by `get(k)`
(undefined when `k` is absent; an all-zero buffer stands in for the
undefined case, which no verified operation reaches). -/
def LRUCache.lookup (c : LRUCache) (k : Int) : BlockBuf :=
  match c.entries.find? (fun e => e.1 == k) with
  | some e => e.2
  | none => fun _ => 0

/-- Modelled from the spec: the recency effect of `get(k)` — the entry for
`k` becomes most recent. -/
def LRUCache.touch (c : LRUCache) (k : Int) : LRUCache :=
  match c.entries.find? (fun e => e.1 == k) with
  | some e => { c with entries := e :: c.entries.filter (fun x => x.1 != k) }
  | none => c

/-- Modelled from the spec: `put(k, buf)` — insert `k` as most recent; if
the map was at capacity prior to insertion the least-recently-used entry
is removed and returned as the evicted list, otherwise nothing is
evicted. -/
def LRUCache.put (c : LRUCache) (k : Int) (buf : BlockBuf) :
    LRUCache × List (Int × BlockBuf) :=
  if c.entries.length = c.capacity then
    ({ c with entries := (k, buf) :: c.entries.dropLast },
      match c.entries.getLast? with
      | some e => [e]
      | none => [])
  else
    ({ c with entries := (k, buf) :: c.entries }, [])

/-- The write `lru_cache->get(block_index)[idx] = value` performed by
`ManagedRaster::set` (line 158): `get` bumps the recency of
`block_index`, and the cell `idx` of its buffer is overwritten through the
returned handle. -/
def LRUCache.writeCell (c : LRUCache) (k : Int) (idx : Nat) (v : ℚ) : LRUCache :=
  let c1 := c.touch k
  { c1 with
    entries := c1.entries.map
      (fun e => if e.1 == k then (e.1, Function.update e.2 idx v) else e) }

/-- `int MANAGED_RASTER_N_BLOCKS = pow(2, 6)` (`ManagedRaster.h` line 11). -/
def MANAGED_RASTER_N_BLOCKS : Nat := 64

/-- The GDAL access mode passed to `GDALOpen` (`gdal.h`). -/
inductive GDALAccess where
  | GA_ReadOnly
  | GA_Update
  deriving DecidableEq, Inhabited

/-- The state of a `ManagedRaster` (`ManagedRaster.h` lines 47-341): the
LRU block cache, the dirty-block set, the on-disk band contents (one
buffer per block window, standing for the data `band->RasterIO` reads and
writes), the construction flags, and the block geometry captured at
construction. -/
structure MRState where
  lru_cache : LRUCache
  dirty_blocks : Finset Int
  disk : Int → BlockBuf
  write_mode : Bool
  closed : Bool
  openAccess : GDALAccess
  raster_x_size : Int
  raster_y_size : Int
  block_xsize : Int
  block_ysize : Int
  block_xmod : Int
  block_ymod : Int
  block_nx : Int
  block_ny : Int
  actualBlockWidths : Int → Int
  deriving Inhabited

/-- The flat block index `(yi / block_ysize) * block_nx + xi / block_xsize`
computed by `set` and `get` (lines 147-151, 169-173); C integer division
truncates, hence `Int.tdiv`. -/
def MRState.blockIndexOf (s : MRState) (xi yi : Int) : Int :=
  Int.tdiv yi s.block_ysize * s.block_nx + Int.tdiv xi s.block_xsize

/-- The intra-block flat index
`((yi & block_ymod) * actualBlockWidths[block_index]) + (xi & block_xmod)`
(lines 157, 184); for the in-bounds coordinates on which `set`/`get` are
defined this is nonnegative, and the array subscript is modelled by
`Int.toNat`. -/
def MRState.cellIdx (s : MRState) (xi yi : Int) (block_index : Int) : Nat :=
  (Int.land yi s.block_ymod * s.actualBlockWidths block_index +
    Int.land xi s.block_xmod).toNat

/-- The eviction loop of `_load_block` (lines 225-262): for each evicted
`(block_index, buffer)` pair, when in write mode and the block is dirty,
it is removed from the dirty set and its buffer is written back to its
window on disk; the buffer is then freed. -/
def flushEvicted (wm : Bool) (removed : List (Int × BlockBuf))
    (dirty : Finset Int) (disk : Int → BlockBuf) :
    Finset Int × (Int → BlockBuf) :=
  removed.foldl
    (fun acc kv =>
      if wm then
        if kv.1 ∈ acc.1 then (acc.1.erase kv.1, Function.update acc.2 kv.1 kv.2)
        else acc
      else acc)
    (dirty, disk)

/-- `ManagedRaster::_load_block(block_index)` (lines 190-263): read the
block window from disk into a fresh buffer, insert it into the LRU cache,
and process the evicted entries with the write-back loop. The windowed
`RasterIO` read/write is modelled as whole-block access to `disk`, which
is faithful because the window offsets and sizes are recomputed from the
block index in exactly the same way at read and at write-back time. -/
def MRState.loadBlock (s : MRState) (block_index : Int) : MRState :=
  let pafScanline := s.disk block_index
  let pr := s.lru_cache.put block_index pafScanline
  let fd := flushEvicted s.write_mode pr.2 s.dirty_blocks s.disk
  { s with lru_cache := pr.1, dirty_blocks := fd.1, disk := fd.2 }

/-- `ManagedRaster::set(xi, yi, value)` (lines 145-165): load the block if
absent, overwrite the cell through the cache handle, and in write mode
insert the block index into the dirty set. -/
def MRState.set (s : MRState) (xi yi : Int) (value : ℚ) : MRState :=
  let block_index := s.blockIndexOf xi yi
  let s1 := if s.lru_cache.exist block_index then s else s.loadBlock block_index
  let idx := s1.cellIdx xi yi block_index
  let cache1 := s1.lru_cache.writeCell block_index idx value
  let dirty1 :=
    if s1.write_mode then insert block_index s1.dirty_blocks else s1.dirty_blocks
  { s1 with lru_cache := cache1, dirty_blocks := dirty1 }

/-- `ManagedRaster::get(xi, yi)` (lines 167-188): load the block if absent,
bump its recency, and read the cell; returns the value together with the
successor state. -/
def MRState.get (s : MRState) (xi yi : Int) : ℚ × MRState :=
  let block_index := s.blockIndexOf xi yi
  let s1 := if s.lru_cache.exist block_index then s else s.loadBlock block_index
  let block := s1.lru_cache.lookup block_index
  let idx := s1.cellIdx xi yi block_index
  (block idx, { s1 with lru_cache := s1.lru_cache.touch block_index })

/-- `ManagedRaster::close()` (lines 265-340): idempotent; in read-only mode
every resident buffer is freed; in write mode each resident block is
written back to its disk window if dirty (and removed from the dirty set)
and then freed. Freed buffers are no longer resident, so the cache ends
empty in both modes. -/
def MRState.close (s : MRState) : MRState :=
  if s.closed then s
  else if s.write_mode = false then
    { s with closed := true, lru_cache := { s.lru_cache with entries := [] } }
  else
    let fd := s.lru_cache.entries.foldl
      (fun acc kv =>
        if kv.1 ∈ acc.1 then (acc.1.erase kv.1, Function.update acc.2 kv.1 kv.2)
        else acc)
      (s.dirty_blocks, s.disk)
    { s with
      closed := true
      dirty_blocks := fd.1
      disk := fd.2
      lru_cache := { s.lru_cache with entries := [] } }

/-- One pixel-level operation on a managed raster. -/
inductive MROp where
  | getOp (xi yi : Int)
  | setOp (xi yi : Int) (v : ℚ)
  | closeOp

/-- Apply one operation. -/
def MRState.step (s : MRState) : MROp → MRState
  | .getOp xi yi => (s.get xi yi).2
  | .setOp xi yi v => s.set xi yi v
  | .closeOp => s.close

/-- Apply a sequence of operations in order. -/
def MRState.run (s : MRState) : List MROp → MRState
  | [] => s
  | op :: rest => (s.step op).run rest

/-- What the `ManagedRaster` constructor consumes from the opened GDAL
dataset and band (spec §6: raster dimensions, band count, band block
dimensions, per-block contents). Nodata and the geotransform are also
captured by the constructor but play no role in any verified claim. -/
structure BandInfo where
  raster_x_size : Int
  raster_y_size : Int
  rasterCount : Int
  block_xsize : Int
  block_ysize : Int
  blockData : Int → BlockBuf

/-- The two exceptions the constructor can raise (lines 100-104 and
116-121). -/
inductive ConstructError where
  | invalidBand
  | blockSizeNotPowerOfTwo
  deriving DecidableEq

/-- The `ManagedRaster` constructor (lines 74-143). The dataset is opened
with `GDALOpen(raster_path, GA_Update)` — the access mode constant
`GA_Update` regardless of `write_mode` (line 95). Then the band index is
validated, the power-of-two test
`(block_xsize & (block_xsize - 1)) != 0 or (block_ysize & (block_ysize - 1)) != 0`
is applied (lines 116-121), the block grid dimensions are computed by C
integer division, the actual block widths are captured from
`band->GetActualBlockSize` (clipped block width per spec §4.2), and an
empty LRU of capacity `MANAGED_RASTER_N_BLOCKS` is allocated. -/
def managedRasterConstruct (info : BandInfo) (band_id : Int) (write_mode : Bool) :
    Except ConstructError MRState :=
  let access := GDALAccess.GA_Update
  if band_id < 1 ∨ info.rasterCount < band_id then
    .error .invalidBand
  else if Int.land info.block_xsize (info.block_xsize - 1) ≠ 0 ∨
      Int.land info.block_ysize (info.block_ysize - 1) ≠ 0 then
    .error .blockSizeNotPowerOfTwo
  else
    let block_nx := Int.tdiv (info.raster_x_size + info.block_xsize - 1) info.block_xsize
    let block_ny := Int.tdiv (info.raster_y_size + info.block_ysize - 1) info.block_ysize
    .ok
      { lru_cache := { capacity := MANAGED_RASTER_N_BLOCKS, entries := [] }
        dirty_blocks := ∅
        disk := info.blockData
        write_mode := write_mode
        closed := false
        openAccess := access
        raster_x_size := info.raster_x_size
        raster_y_size := info.raster_y_size
        block_xsize := info.block_xsize
        block_ysize := info.block_ysize
        block_xmod := info.block_xsize - 1
        block_ymod := info.block_ysize - 1
        block_nx := block_nx
        block_ny := block_ny
        actualBlockWidths := fun bi =>
          min info.block_xsize
            (info.raster_x_size - Int.tmod bi block_nx * info.block_xsize) }

theorem LRUCache.exist_iff_mem_keys (c : LRUCache) (k : Int) :
    c.exist k = true ↔ k ∈ c.entries.map Prod.fst := by
  unfold LRUCache.exist
  rw [List.any_eq_true]
  constructor
  · rintro ⟨e, he, hek⟩
    rw [List.mem_map]
    exact ⟨e, he, by simpa using hek⟩
  · intro h
    rw [List.mem_map] at h
    obtain ⟨e, he, hek⟩ := h
    exact ⟨e, he, by simpa using hek⟩

theorem LRUCache.exist_find? (c : LRUCache) (k : Int) (h : c.exist k = true) :
    ∃ buf, c.entries.find? (fun e => e.1 == k) = some (k, buf) := by
  unfold LRUCache.exist at h
  have hs : (c.entries.find? (fun e => e.1 == k)).isSome := by
    rw [List.find?_isSome]
    rw [List.any_eq_true] at h
    exact h
  obtain ⟨e, he⟩ := Option.isSome_iff_exists.mp hs
  obtain ⟨a, b⟩ := e
  have hak : a = k := by simpa using List.find?_some he
  subst hak
  exact ⟨b, he⟩

theorem LRUCache.put_exist_self (c : LRUCache) (k : Int) (buf : BlockBuf) :
    (c.put k buf).1.exist k = true := by
  unfold LRUCache.put LRUCache.exist
  split <;> simp

theorem LRUCache.writeCell_spec (c : LRUCache) (k : Int) (idx : Nat) (v : ℚ)
    (h : c.exist k = true) :
    (c.writeCell k idx v).exist k = true ∧
    (c.writeCell k idx v).lookup k = Function.update (c.lookup k) idx v := by
  obtain ⟨buf, hf⟩ := c.exist_find? k h
  unfold LRUCache.writeCell LRUCache.touch LRUCache.lookup LRUCache.exist
  rw [hf]
  simp only [List.map_cons, beq_self_eq_true, if_pos, List.any_cons]
  constructor
  · simp
  · rw [List.find?_cons_of_pos _ (by simp)]

theorem LRUCache.mem_keys_touch (c : LRUCache) (k m : Int)
    (h : m ∈ c.entries.map Prod.fst) :
    m ∈ (c.touch k).entries.map Prod.fst := by
  unfold LRUCache.touch
  cases hf : c.entries.find? (fun e => e.1 == k) with
  | none => exact h
  | some e =>
    have hek : e.1 = k := by simpa using List.find?_some hf
    simp only [List.map_cons, List.mem_cons]
    by_cases hmk : m = e.1
    · exact Or.inl hmk
    · right
      rw [List.mem_map] at h ⊢
      obtain ⟨x, hx, hxm⟩ := h
      refine ⟨x, List.mem_filter.mpr ⟨hx, ?_⟩, hxm⟩
      simp only [bne_iff_ne, ne_eq]
      omega

theorem LRUCache.writeCell_keys (c : LRUCache) (k : Int) (idx : Nat) (v : ℚ) :
    (c.writeCell k idx v).entries.map Prod.fst =
      (c.touch k).entries.map Prod.fst := by
  unfold LRUCache.writeCell
  simp only [List.map_map]
  apply List.map_congr_left
  intro e _
  by_cases he : e.1 = k <;> simp [he]

theorem LRUCache.mem_keys_put (c : LRUCache) (k : Int) (buf : BlockBuf) (m : Int)
    (hm : m ∈ c.entries.map Prod.fst)
    (hev : ∀ e ∈ (c.put k buf).2, e.1 ≠ m) :
    m ∈ (c.put k buf).1.entries.map Prod.fst := by
  by_cases hlen : c.entries.length = c.capacity
  · cases hl : c.entries.getLast? with
    | none =>
      rw [List.getLast?_eq_none_iff] at hl
      rw [hl] at hm
      simp at hm
    | some e =>
      have hput1 : (c.put k buf).1.entries = (k, buf) :: c.entries.dropLast := by
        unfold LRUCache.put
        rw [if_pos hlen]
      have hput2 : (c.put k buf).2 = [e] := by
        unfold LRUCache.put
        rw [if_pos hlen]
        simp only [hl]
      have hme : e.1 ≠ m := hev e (by rw [hput2]; simp)
      have hne : c.entries ≠ [] := by
        intro h0
        rw [h0] at hl
        simp at hl
      have hlast : c.entries.getLast hne = e := by
        have h2 := List.getLast?_eq_getLast c.entries hne
        rw [h2] at hl
        exact Option.some.inj hl
      have hdec : c.entries.dropLast ++ [e] = c.entries := by
        rw [← hlast]
        exact List.dropLast_append_getLast hne
      rw [hput1]
      simp only [List.map_cons, List.mem_cons]
      right
      rw [← hdec, List.map_append] at hm
      rcases List.mem_append.mp hm with h | h
      · exact h
      · simp at h
        exact absurd h.symm hme
  · have hput1 : (c.put k buf).1.entries = (k, buf) :: c.entries := by
      unfold LRUCache.put
      rw [if_neg hlen]
    rw [hput1]
    simp only [List.map_cons, List.mem_cons]
    exact Or.inr hm

theorem MRState.loadBlock_exist (s : MRState) (bi : Int) :
    (s.loadBlock bi).lru_cache.exist bi = true :=
  LRUCache.put_exist_self s.lru_cache bi (s.disk bi)

theorem flushEvicted_false (removed : List (Int × BlockBuf)) :
    ∀ (dirty : Finset Int) (disk : Int → BlockBuf),
      flushEvicted false removed dirty disk = (dirty, disk) := by
  induction removed with
  | nil =>
    intro d dk
    rfl
  | cons kv rest ih =>
    intro d dk
    show flushEvicted false rest d dk = (d, dk)
    exact ih d dk

theorem flushEvicted_true_fst (removed : List (Int × BlockBuf)) :
    ∀ (dirty : Finset Int) (disk : Int → BlockBuf),
      (flushEvicted true removed dirty disk).1 =
        removed.foldl (fun d kv => d.erase kv.1) dirty := by
  induction removed with
  | nil =>
    intro d dk
    rfl
  | cons kv rest ih =>
    intro d dk
    by_cases hkv : kv.1 ∈ d
    · have hstep : flushEvicted true (kv :: rest) d dk =
          flushEvicted true rest (d.erase kv.1) (Function.update dk kv.1 kv.2) := by
        unfold flushEvicted
        rw [List.foldl_cons]
        congr 1
        simp [hkv]
      rw [hstep, ih, List.foldl_cons]
    · have hstep : flushEvicted true (kv :: rest) d dk =
          flushEvicted true rest d dk := by
        unfold flushEvicted
        rw [List.foldl_cons]
        congr 1
        simp [hkv]
      rw [hstep, ih, List.foldl_cons, Finset.erase_eq_of_not_mem hkv]

theorem foldl_erase_mem (l : List (Int × BlockBuf)) :
    ∀ (d : Finset Int) (k : Int),
      k ∈ l.foldl (fun d kv => d.erase kv.1) d →
        k ∈ d ∧ k ∉ l.map Prod.fst := by
  induction l with
  | nil =>
    intro d k hk
    exact ⟨hk, by simp⟩
  | cons kv rest ih =>
    intro d k hk
    rw [List.foldl_cons] at hk
    obtain ⟨h1, h2⟩ := ih (d.erase kv.1) k hk
    have hkkv : k ≠ kv.1 := (Finset.mem_erase.mp h1).1
    refine ⟨(Finset.mem_erase.mp h1).2, ?_⟩
    simp only [List.map_cons, List.mem_cons]
    rintro (h | h)
    · exact hkkv h
    · exact h2 h

theorem foldl_erase_eq_empty (l : List (Int × BlockBuf)) :
    ∀ d : Finset Int, (∀ k ∈ d, k ∈ l.map Prod.fst) →
      l.foldl (fun d kv => d.erase kv.1) d = ∅ := by
  induction l with
  | nil =>
    intro d hd
    exact Finset.eq_empty_of_forall_not_mem (fun k hk => by simpa using hd k hk)
  | cons kv rest ih =>
    intro d hd
    rw [List.foldl_cons]
    apply ih
    intro k hk
    obtain ⟨hk1, hk2⟩ := Finset.mem_erase.mp hk
    have := hd k hk2
    simp only [List.map_cons, List.mem_cons] at this
    rcases this with h | h
    · exact absurd h hk1
    · exact h

theorem MRState.loadBlock_blockIndexOf (s : MRState) (b xi yi : Int) :
    (s.loadBlock b).blockIndexOf xi yi = s.blockIndexOf xi yi := rfl

theorem MRState.loadBlock_cellIdx (s : MRState) (b xi yi bi : Int) :
    (s.loadBlock b).cellIdx xi yi bi = s.cellIdx xi yi bi := rfl

theorem MRState.get_val_of_exist (s : MRState) (xi yi : Int)
    (h : s.lru_cache.exist (s.blockIndexOf xi yi) = true) :
    (s.get xi yi).1 = s.lru_cache.lookup (s.blockIndexOf xi yi)
      (s.cellIdx xi yi (s.blockIndexOf xi yi)) := by
  simp only [MRState.get, h, if_true]

theorem set_then_get (s : MRState) (xi yi : Int) (v : ℚ) :
    ((s.set xi yi v).get xi yi).1 = v := by
  have main : ∀ s1 : MRState,
      s1.lru_cache.exist (s1.blockIndexOf xi yi) = true →
      ((({ s1 with
          lru_cache := s1.lru_cache.writeCell (s1.blockIndexOf xi yi)
            (s1.cellIdx xi yi (s1.blockIndexOf xi yi)) v
          dirty_blocks :=
            if s1.write_mode then insert (s1.blockIndexOf xi yi) s1.dirty_blocks
            else s1.dirty_blocks } : MRState)).get xi yi).1 = v := by
    intro s1 h1
    obtain ⟨hex, hlk⟩ := s1.lru_cache.writeCell_spec (s1.blockIndexOf xi yi)
      (s1.cellIdx xi yi (s1.blockIndexOf xi yi)) v h1
    rw [MRState.get_val_of_exist _ xi yi hex]
    show (s1.lru_cache.writeCell (s1.blockIndexOf xi yi)
        (s1.cellIdx xi yi (s1.blockIndexOf xi yi)) v).lookup
        (s1.blockIndexOf xi yi) (s1.cellIdx xi yi (s1.blockIndexOf xi yi)) = v
    rw [hlk]
    exact Function.update_same _ _ _
  by_cases hx : s.lru_cache.exist (s.blockIndexOf xi yi) = true
  · have hset : s.set xi yi v =
        { s with
          lru_cache := s.lru_cache.writeCell (s.blockIndexOf xi yi)
            (s.cellIdx xi yi (s.blockIndexOf xi yi)) v
          dirty_blocks :=
            if s.write_mode then insert (s.blockIndexOf xi yi) s.dirty_blocks
            else s.dirty_blocks } := by
      simp only [MRState.set, hx, if_true]
    rw [hset]
    exact main s hx
  · have hx' : s.lru_cache.exist (s.blockIndexOf xi yi) = false :=
      Bool.not_eq_true _ ▸ Bool.of_not_eq_true hx
    have hx2 : (s.loadBlock (s.blockIndexOf xi yi)).lru_cache.exist
        ((s.loadBlock (s.blockIndexOf xi yi)).blockIndexOf xi yi) = true := by
      rw [MRState.loadBlock_blockIndexOf]
      exact s.loadBlock_exist _
    have hset : s.set xi yi v =
        { s.loadBlock (s.blockIndexOf xi yi) with
          lru_cache := (s.loadBlock (s.blockIndexOf xi yi)).lru_cache.writeCell
            ((s.loadBlock (s.blockIndexOf xi yi)).blockIndexOf xi yi)
            ((s.loadBlock (s.blockIndexOf xi yi)).cellIdx xi yi
              ((s.loadBlock (s.blockIndexOf xi yi)).blockIndexOf xi yi)) v
          dirty_blocks :=
            if (s.loadBlock (s.blockIndexOf xi yi)).write_mode then
              insert ((s.loadBlock (s.blockIndexOf xi yi)).blockIndexOf xi yi)
                (s.loadBlock (s.blockIndexOf xi yi)).dirty_blocks
            else (s.loadBlock (s.blockIndexOf xi yi)).dirty_blocks } := by
      simp only [MRState.set, hx', Bool.false_eq_true, if_false]
      rfl
    rw [hset]
    exact main (s.loadBlock (s.blockIndexOf xi yi)) hx2

theorem MRState.set_eq_of_exist (s : MRState) (xi yi : Int) (v : ℚ)
    (hx : s.lru_cache.exist (s.blockIndexOf xi yi) = true) :
    s.set xi yi v =
      { s with
        lru_cache := s.lru_cache.writeCell (s.blockIndexOf xi yi)
          (s.cellIdx xi yi (s.blockIndexOf xi yi)) v
        dirty_blocks :=
          if s.write_mode then insert (s.blockIndexOf xi yi) s.dirty_blocks
          else s.dirty_blocks } := by
  simp only [MRState.set, hx, if_true]

theorem MRState.set_eq_of_not_exist (s : MRState) (xi yi : Int) (v : ℚ)
    (hx : s.lru_cache.exist (s.blockIndexOf xi yi) = false) :
    s.set xi yi v =
      { s.loadBlock (s.blockIndexOf xi yi) with
        lru_cache := (s.loadBlock (s.blockIndexOf xi yi)).lru_cache.writeCell
          ((s.loadBlock (s.blockIndexOf xi yi)).blockIndexOf xi yi)
          ((s.loadBlock (s.blockIndexOf xi yi)).cellIdx xi yi
            ((s.loadBlock (s.blockIndexOf xi yi)).blockIndexOf xi yi)) v
        dirty_blocks :=
          if (s.loadBlock (s.blockIndexOf xi yi)).write_mode then
            insert ((s.loadBlock (s.blockIndexOf xi yi)).blockIndexOf xi yi)
              (s.loadBlock (s.blockIndexOf xi yi)).dirty_blocks
          else (s.loadBlock (s.blockIndexOf xi yi)).dirty_blocks } := by
  simp only [MRState.set, hx, Bool.false_eq_true, if_false]
  rfl

theorem MRState.get_snd_of_exist (s : MRState) (xi yi : Int)
    (hx : s.lru_cache.exist (s.blockIndexOf xi yi) = true) :
    (s.get xi yi).2 =
      { s with lru_cache := s.lru_cache.touch (s.blockIndexOf xi yi) } := by
  simp only [MRState.get, hx, if_true]

theorem MRState.get_snd_of_not_exist (s : MRState) (xi yi : Int)
    (hx : s.lru_cache.exist (s.blockIndexOf xi yi) = false) :
    (s.get xi yi).2 =
      { s.loadBlock (s.blockIndexOf xi yi) with
        lru_cache := (s.loadBlock (s.blockIndexOf xi yi)).lru_cache.touch
          ((s.loadBlock (s.blockIndexOf xi yi)).blockIndexOf xi yi) } := by
  simp only [MRState.get, hx, Bool.false_eq_true, if_false]
  rfl

/-- The invariant maintained by every pixel-level operation: every dirty
block is resident in the LRU cache, and in read-only mode the dirty set is
empty. -/
def DirtyInv (s : MRState) : Prop :=
  (∀ k ∈ s.dirty_blocks, k ∈ s.lru_cache.entries.map Prod.fst) ∧
  (s.write_mode = false → s.dirty_blocks = ∅)

theorem DirtyInv.loadBlock (s : MRState) (bi : Int) (h : DirtyInv s) :
    DirtyInv (s.loadBlock bi) := by
  obtain ⟨h1, h2⟩ := h
  cases hwm : s.write_mode with
  | false =>
    have hd := h2 hwm
    have hdd : (s.loadBlock bi).dirty_blocks = s.dirty_blocks := by
      show (flushEvicted s.write_mode (s.lru_cache.put bi (s.disk bi)).2
        s.dirty_blocks s.disk).1 = s.dirty_blocks
      rw [hwm, flushEvicted_false]
    constructor
    · intro k hk
      rw [hdd, hd] at hk
      simp at hk
    · intro _
      rw [hdd, hd]
  | true =>
    constructor
    · intro k hk
      have hdd : (s.loadBlock bi).dirty_blocks =
          (s.lru_cache.put bi (s.disk bi)).2.foldl
            (fun d kv => d.erase kv.1) s.dirty_blocks := by
        show (flushEvicted s.write_mode (s.lru_cache.put bi (s.disk bi)).2
          s.dirty_blocks s.disk).1 = _
        rw [hwm, flushEvicted_true_fst]
      rw [hdd] at hk
      obtain ⟨hk1, hk2⟩ := foldl_erase_mem _ _ _ hk
      have hkeys := h1 k hk1
      show k ∈ (s.lru_cache.put bi (s.disk bi)).1.entries.map Prod.fst
      apply s.lru_cache.mem_keys_put bi (s.disk bi) k hkeys
      intro e he hek
      exact hk2 (hek ▸ List.mem_map_of_mem Prod.fst he)
    · intro hf
      have hf2 : s.write_mode = false := hf
      rw [hwm] at hf2
      exact absurd hf2 (by simp)

theorem DirtyInv.setOp (s : MRState) (xi yi : Int) (v : ℚ) (h : DirtyInv s) :
    DirtyInv (s.set xi yi v) := by
  have main : ∀ s1 : MRState, DirtyInv s1 →
      s1.lru_cache.exist (s1.blockIndexOf xi yi) = true →
      DirtyInv { s1 with
        lru_cache := s1.lru_cache.writeCell (s1.blockIndexOf xi yi)
          (s1.cellIdx xi yi (s1.blockIndexOf xi yi)) v
        dirty_blocks :=
          if s1.write_mode then insert (s1.blockIndexOf xi yi) s1.dirty_blocks
          else s1.dirty_blocks } := by
    rintro s1 ⟨h1, h2⟩ hex
    constructor
    · intro k hk
      show k ∈ (s1.lru_cache.writeCell (s1.blockIndexOf xi yi)
        (s1.cellIdx xi yi (s1.blockIndexOf xi yi)) v).entries.map Prod.fst
      rw [LRUCache.writeCell_keys]
      have hmem : ∀ m, m ∈ s1.lru_cache.entries.map Prod.fst →
          m ∈ (s1.lru_cache.touch (s1.blockIndexOf xi yi)).entries.map Prod.fst :=
        fun m => LRUCache.mem_keys_touch _ _ m
      cases hwm : s1.write_mode with
      | true =>
        have hk2 : k ∈ insert (s1.blockIndexOf xi yi) s1.dirty_blocks := by
          have : ({ s1 with
              lru_cache := s1.lru_cache.writeCell (s1.blockIndexOf xi yi)
                (s1.cellIdx xi yi (s1.blockIndexOf xi yi)) v
              dirty_blocks :=
                if s1.write_mode then insert (s1.blockIndexOf xi yi) s1.dirty_blocks
                else s1.dirty_blocks } : MRState).dirty_blocks =
              insert (s1.blockIndexOf xi yi) s1.dirty_blocks := by
            simp [hwm]
          rwa [this] at hk
        rcases Finset.mem_insert.mp hk2 with rfl | hk3
        · exact hmem _ ((s1.lru_cache.exist_iff_mem_keys _).mp hex)
        · exact hmem _ (h1 k hk3)
      | false =>
        have hk2 : k ∈ s1.dirty_blocks := by
          have : ({ s1 with
              lru_cache := s1.lru_cache.writeCell (s1.blockIndexOf xi yi)
                (s1.cellIdx xi yi (s1.blockIndexOf xi yi)) v
              dirty_blocks :=
                if s1.write_mode then insert (s1.blockIndexOf xi yi) s1.dirty_blocks
                else s1.dirty_blocks } : MRState).dirty_blocks =
              s1.dirty_blocks := by
            simp [hwm]
          rwa [this] at hk
        exact hmem _ (h1 k hk2)
    · intro hwm
      have hwm' : s1.write_mode = false := hwm
      show (if s1.write_mode then insert (s1.blockIndexOf xi yi) s1.dirty_blocks
        else s1.dirty_blocks) = ∅
      rw [hwm']
      simpa using h2 hwm'
  by_cases hx : s.lru_cache.exist (s.blockIndexOf xi yi) = true
  · rw [s.set_eq_of_exist xi yi v hx]
    exact main s h hx
  · have hx' : s.lru_cache.exist (s.blockIndexOf xi yi) = false :=
      Bool.not_eq_true _ ▸ Bool.of_not_eq_true hx
    rw [s.set_eq_of_not_exist xi yi v hx']
    have hload := DirtyInv.loadBlock s (s.blockIndexOf xi yi) h
    have hx2 : (s.loadBlock (s.blockIndexOf xi yi)).lru_cache.exist
        ((s.loadBlock (s.blockIndexOf xi yi)).blockIndexOf xi yi) = true := by
      rw [MRState.loadBlock_blockIndexOf]
      exact s.loadBlock_exist _
    exact main _ hload hx2

theorem DirtyInv.getOp (s : MRState) (xi yi : Int) (h : DirtyInv s) :
    DirtyInv ((s.get xi yi).2) := by
  have main : ∀ s1 : MRState, DirtyInv s1 →
      DirtyInv { s1 with
        lru_cache := s1.lru_cache.touch (s1.blockIndexOf xi yi) } := by
    rintro s1 ⟨h1, h2⟩
    exact ⟨fun k hk => LRUCache.mem_keys_touch _ _ k (h1 k hk), h2⟩
  by_cases hx : s.lru_cache.exist (s.blockIndexOf xi yi) = true
  · rw [s.get_snd_of_exist xi yi hx]
    exact main s h
  · have hx' : s.lru_cache.exist (s.blockIndexOf xi yi) = false :=
      Bool.not_eq_true _ ▸ Bool.of_not_eq_true hx
    rw [s.get_snd_of_not_exist xi yi hx']
    exact main _ (DirtyInv.loadBlock s _ h)

theorem close_of_inv (s : MRState) (h : DirtyInv s) (hc : s.closed = false) :
    (s.close).dirty_blocks = ∅ ∧ (s.close).lru_cache.entries = [] := by
  obtain ⟨h1, h2⟩ := h
  unfold MRState.close
  rw [hc]
  simp only [Bool.false_eq_true, if_false]
  by_cases hwm : s.write_mode = false
  · rw [if_pos hwm]
    exact ⟨h2 hwm, rfl⟩
  · rw [if_neg hwm]
    refine ⟨?_, rfl⟩
    show (flushEvicted true s.lru_cache.entries s.dirty_blocks s.disk).1 = ∅
    rw [flushEvicted_true_fst]
    exact foldl_erase_eq_empty _ _ h1

theorem DirtyInv.closeOp (s : MRState) (h : DirtyInv s) : DirtyInv (s.close) := by
  by_cases hcl : s.closed = false
  · obtain ⟨hd, he⟩ := close_of_inv s h hcl
    refine ⟨?_, fun _ => hd⟩
    intro k hk
    rw [hd] at hk
    simp at hk
  · have hcl2 : s.closed = true := by
      cases hc2 : s.closed
      · exact absurd hc2 hcl
      · rfl
    unfold MRState.close
    rw [hcl2]
    simpa using h

theorem DirtyInv.stepOp (s : MRState) (op : MROp) (h : DirtyInv s) :
    DirtyInv (s.step op) := by
  cases op with
  | getOp xi yi => exact DirtyInv.getOp s xi yi h
  | setOp xi yi v => exact DirtyInv.setOp s xi yi v h
  | closeOp => exact DirtyInv.closeOp s h

theorem DirtyInv.runOps (s : MRState) (ops : List MROp) (h : DirtyInv s) :
    DirtyInv (s.run ops) := by
  induction ops generalizing s with
  | nil => exact h
  | cons op rest ih => exact ih (s.step op) (DirtyInv.stepOp s op h)

theorem MRState.loadBlock_readonly (s : MRState) (bi : Int)
    (hw : s.write_mode = false) :
    (s.loadBlock bi).disk = s.disk ∧
    (s.loadBlock bi).dirty_blocks = s.dirty_blocks := by
  constructor
  · show (flushEvicted s.write_mode (s.lru_cache.put bi (s.disk bi)).2
      s.dirty_blocks s.disk).2 = s.disk
    rw [hw, flushEvicted_false]
  · show (flushEvicted s.write_mode (s.lru_cache.put bi (s.disk bi)).2
      s.dirty_blocks s.disk).1 = s.dirty_blocks
    rw [hw, flushEvicted_false]

theorem MRState.step_readonly (s : MRState) (hw : s.write_mode = false)
    (op : MROp) :
    (s.step op).disk = s.disk ∧ (s.step op).dirty_blocks = s.dirty_blocks ∧
    (s.step op).write_mode = false := by
  cases op with
  | getOp xi yi =>
    show ((s.get xi yi).2).disk = s.disk ∧
      ((s.get xi yi).2).dirty_blocks = s.dirty_blocks ∧
      ((s.get xi yi).2).write_mode = false
    by_cases hx : s.lru_cache.exist (s.blockIndexOf xi yi) = true
    · rw [s.get_snd_of_exist xi yi hx]
      exact ⟨rfl, rfl, hw⟩
    · have hx' : s.lru_cache.exist (s.blockIndexOf xi yi) = false :=
        Bool.not_eq_true _ ▸ Bool.of_not_eq_true hx
      rw [s.get_snd_of_not_exist xi yi hx']
      obtain ⟨hd, hdb⟩ := s.loadBlock_readonly _ hw
      exact ⟨hd, hdb, hw⟩
  | setOp xi yi v =>
    show (s.set xi yi v).disk = s.disk ∧
      (s.set xi yi v).dirty_blocks = s.dirty_blocks ∧
      (s.set xi yi v).write_mode = false
    by_cases hx : s.lru_cache.exist (s.blockIndexOf xi yi) = true
    · rw [s.set_eq_of_exist xi yi v hx]
      refine ⟨rfl, ?_, hw⟩
      show (if s.write_mode then insert (s.blockIndexOf xi yi) s.dirty_blocks
        else s.dirty_blocks) = s.dirty_blocks
      rw [hw]
      simp
    · have hx' : s.lru_cache.exist (s.blockIndexOf xi yi) = false :=
        Bool.not_eq_true _ ▸ Bool.of_not_eq_true hx
      rw [s.set_eq_of_not_exist xi yi v hx']
      obtain ⟨hd, hdb⟩ := s.loadBlock_readonly (s.blockIndexOf xi yi) hw
      have hw2 : (s.loadBlock (s.blockIndexOf xi yi)).write_mode = false := hw
      refine ⟨hd, ?_, hw⟩
      show (if (s.loadBlock (s.blockIndexOf xi yi)).write_mode then
          insert ((s.loadBlock (s.blockIndexOf xi yi)).blockIndexOf xi yi)
            (s.loadBlock (s.blockIndexOf xi yi)).dirty_blocks
        else (s.loadBlock (s.blockIndexOf xi yi)).dirty_blocks) = s.dirty_blocks
      rw [hw2]
      simpa using hdb
  | closeOp =>
    show (s.close).disk = s.disk ∧ (s.close).dirty_blocks = s.dirty_blocks ∧
      (s.close).write_mode = false
    unfold MRState.close
    by_cases hcl : s.closed = true
    · rw [if_pos hcl]
      exact ⟨rfl, rfl, hw⟩
    · rw [if_neg hcl, if_pos hw]
      exact ⟨rfl, rfl, hw⟩

theorem MRState.run_readonly (s : MRState) (hw : s.write_mode = false) :
    ∀ ops : List MROp, (s.run ops).disk = s.disk ∧
      (s.run ops).dirty_blocks = s.dirty_blocks ∧
      (s.run ops).write_mode = false := by
  intro ops
  induction ops generalizing s with
  | nil => exact ⟨rfl, rfl, hw⟩
  | cons op rest ih =>
    obtain ⟨hd, hdb, hwm⟩ := s.step_readonly hw op
    obtain ⟨hd2, hdb2, hwm2⟩ := ih (s.step op) hwm
    exact ⟨hd2.trans hd, hdb2.trans hdb, hwm2⟩

theorem MRState.close_disk_readonly (s : MRState) (hw : s.write_mode = false) :
    (s.close).disk = s.disk := by
  unfold MRState.close
  by_cases hcl : s.closed = true
  · rw [if_pos hcl]
  · rw [if_neg hcl, if_pos hw]

/-- C1: for every in-bounds coordinate and every value, `set(x, y, v)`
followed by `get(x, y)` on the same managed raster returns `v` — for an
arbitrary prior cache state, so in particular whether or not either call
triggers `_load_block`. -/
theorem C1_read_after_write (s : MRState) (xi yi : Int) (v : ℚ)
    (_hx1 : 0 ≤ xi) (_hx2 : xi < s.raster_x_size)
    (_hy1 : 0 ≤ yi) (_hy2 : yi < s.raster_y_size) :
    ((s.set xi yi v).get xi yi).1 = v :=
  set_then_get s xi yi v

/-- A concrete 4x4 band with one band and 2x2 blocks, used to instantiate
the construction and cache theorems. -/
def info0 : BandInfo := ⟨4, 4, 1, 2, 2, fun _ _ => 0⟩

/-- The managed raster constructed from `info0` in write mode. -/
def mrDemo : MRState :=
  match managedRasterConstruct info0 1 true with
  | .ok s => s
  | .error _ => default

theorem mrDemo_spec : managedRasterConstruct info0 1 true = .ok mrDemo := rfl

/-- The managed raster constructed from `info0` in read-only mode. -/
def mrDemoRO : MRState :=
  match managedRasterConstruct info0 1 false with
  | .ok s => s
  | .error _ => default

theorem mrDemoRO_spec : managedRasterConstruct info0 1 false = .ok mrDemoRO := rfl

theorem C1_witness :
    (0 ≤ (1 : Int) ∧ (1 : Int) < mrDemo.raster_x_size ∧
      0 ≤ (1 : Int) ∧ (1 : Int) < mrDemo.raster_y_size) ∧
    ((mrDemo.set 1 1 5).get 1 1).1 = 5 :=
  ⟨⟨by decide, by decide, by decide, by decide⟩,
    C1_read_after_write mrDemo 1 1 5 (by decide) (by decide) (by decide)
      (by decide)⟩

/-- C7: starting from a freshly constructed state (empty cache, empty dirty
set), after any sequence of get/set/close operations every dirty block
index is resident in the LRU cache, and calling `close()` on a
not-yet-closed state leaves both the dirty set and the cache empty. -/
theorem C7_dirty_containment (s0 : MRState)
    (_h1 : s0.lru_cache.entries = []) (h2 : s0.dirty_blocks = ∅)
    (ops : List MROp) :
    (∀ k ∈ (s0.run ops).dirty_blocks,
      k ∈ (s0.run ops).lru_cache.entries.map Prod.fst) ∧
    ((s0.run ops).closed = false →
      ((s0.run ops).close).dirty_blocks = ∅ ∧
      ((s0.run ops).close).lru_cache.entries = []) := by
  have h0 : DirtyInv s0 := by
    refine ⟨?_, fun _ => h2⟩
    intro k hk
    rw [h2] at hk
    simp at hk
  have hinv : DirtyInv (s0.run ops) := DirtyInv.runOps s0 ops h0
  exact ⟨hinv.1, fun hc => close_of_inv _ hinv hc⟩

theorem C7_witness :
    (∀ k ∈ (mrDemo.run [MROp.setOp 1 1 5]).dirty_blocks,
      k ∈ (mrDemo.run [MROp.setOp 1 1 5]).lru_cache.entries.map Prod.fst) ∧
    ((mrDemo.run [MROp.setOp 1 1 5]).closed = false →
      ((mrDemo.run [MROp.setOp 1 1 5]).close).dirty_blocks = ∅ ∧
      ((mrDemo.run [MROp.setOp 1 1 5]).close).lru_cache.entries = []) :=
  C7_dirty_containment mrDemo rfl rfl [MROp.setOp 1 1 5]

/-- C10: on a read-only managed raster, `set(x, y, v)` modifies only the
in-memory cached block — a subsequent `get(x, y)` returns `v` — the dirty
set is unchanged, and after any further operation sequence `close()`
writes nothing back, so the on-disk contents are never affected. -/
theorem C10_readonly_frame (s : MRState) (hw : s.write_mode = false)
    (xi yi : Int) (v : ℚ)
    (_hx1 : 0 ≤ xi) (_hx2 : xi < s.raster_x_size)
    (_hy1 : 0 ≤ yi) (_hy2 : yi < s.raster_y_size) :
    ((s.set xi yi v).get xi yi).1 = v ∧
    (s.set xi yi v).dirty_blocks = s.dirty_blocks ∧
    (∀ ops : List MROp, ((s.run ops).close).disk = s.disk) := by
  refine ⟨set_then_get s xi yi v, ?_, ?_⟩
  · exact (s.step_readonly hw (MROp.setOp xi yi v)).2.1
  · intro ops
    obtain ⟨hd, _, hwm⟩ := s.run_readonly hw ops
    rw [MRState.close_disk_readonly _ hwm, hd]

theorem C10_witness :
    (mrDemoRO.write_mode = false ∧ 0 ≤ (1 : Int) ∧
      (1 : Int) < mrDemoRO.raster_x_size ∧ 0 ≤ (1 : Int) ∧
      (1 : Int) < mrDemoRO.raster_y_size) ∧
    (((mrDemoRO.set 1 1 5).get 1 1).1 = 5 ∧
      (mrDemoRO.set 1 1 5).dirty_blocks = mrDemoRO.dirty_blocks ∧
      (∀ ops : List MROp, ((mrDemoRO.run ops).close).disk = mrDemoRO.disk)) :=
  ⟨⟨rfl, by decide, by decide, by decide, by decide⟩,
    C10_readonly_frame mrDemoRO rfl 1 1 5 (by decide) (by decide) (by decide)
      (by decide)⟩

/-- C4, counterexample to the claim as stated: constructing with
`write_mode = false` still opens the dataset with access mode `GA_Update`,
not `GA_ReadOnly` — the constructor passes `GA_Update` to `GDALOpen`
unconditionally (line 95). -/
theorem C4_counterexample :
    (managedRasterConstruct info0 1 false).toOption.map MRState.openAccess =
      some GDALAccess.GA_Update ∧
    GDALAccess.GA_Update ≠ GDALAccess.GA_ReadOnly :=
  ⟨rfl, by decide⟩

/-- C4 (amended): construction opens the underlying raster with
`GA_Update` (read-write) regardless of the requested `write_mode`; the
`write_mode` flag only controls dirty tracking and write-back. -/
theorem C4_open_always_update (info : BandInfo) (band_id : Int)
    (write_mode : Bool) (s : MRState)
    (h : managedRasterConstruct info band_id write_mode = .ok s) :
    s.openAccess = GDALAccess.GA_Update := by
  simp only [managedRasterConstruct] at h
  split at h
  · exact absurd h (by simp)
  · split at h
    · exact absurd h (by simp)
    · cases Except.ok.inj h
      rfl

theorem C4_witness : mrDemoRO.openAccess = GDALAccess.GA_Update :=
  C4_open_always_update info0 1 false mrDemoRO mrDemoRO_spec

/-- A band whose x block dimension is 0 — not a positive power of two, so
per the constructor's own documentation an exception should be raised. -/
def infoZeroBlock : BandInfo := ⟨4, 4, 1, 0, 2, fun _ _ => 0⟩

/-- C6: the power-of-two check `(block_xsize & (block_xsize - 1)) != 0`
accepts a block dimension of 0, because `0 & -1 == 0`; construction
therefore succeeds on a band with `block_xsize = 0`, contradicting both
the claim and the constructor's own documentation ("block sizes that are
powers of 2. If not, an exception is raised"). -/
theorem C6_zero_block_size_accepted :
    ∃ s, managedRasterConstruct infoZeroBlock 1 true = .ok s := by
  have hland : Int.land infoZeroBlock.block_xsize
      (infoZeroBlock.block_xsize - 1) = 0 := by
    show Int.land 0 (0 - 1) = 0
    have h : (0 - 1 : Int) = Int.negSucc 0 := by decide
    rw [h]
    show Int.ofNat (Nat.ldiff 0 0) = 0
    norm_num [Nat.ldiff, Nat.bitwise]
  have hland2 : Int.land infoZeroBlock.block_ysize
      (infoZeroBlock.block_ysize - 1) = 0 := by
    show Int.land 2 (2 - 1) = 0
    decide
  unfold managedRasterConstruct
  rw [if_neg (by decide), if_neg (by push_neg; exact ⟨hland, hland2⟩)]
  exact ⟨_, rfl⟩

end InvestManagedRaster
